import Mathlib

/-! chatServer.go: broadcaster, connection handler, idle monitor.

A shallow embedding of `src/chatServer.go`.

* A channel made by `make(chan string)` is a `Chan` (a number that names it); the
  channels that have been closed are kept in the state.  Go's two channel
  failures are explicit: a send on a closed channel and a close of a closed
  channel end the run with a `Panic`.  A send on an open sink completes, because
  `clientWriter` drains the sink until it is closed.
* The map `listOfActiveClients` (type `map[client]bool`, every stored value is
  `true`) is the duplicate-free list of its keys.  Go fixes no iteration
  order for `range` over a map, so every `range` loop takes the order in which it
  visits the keys from a `MapOrder` that is an input of the model.
* Go strings are byte sequences; they are embedded as `String`, and the bytes read
  from a connection as `List Char`.
-/

namespace ChatServer

/-! ## Data model (chatServer.go 47-59) -/

/-- The name of a channel value created by `make(chan string)`. -/
abbrev Chan := Nat

/-- The struct `client` (lines 47-50): the outgoing message channel and the user
name.  It is the key type of the map, so two clients are the same key when both
fields agree. -/
structure client where
  msgChannel : Chan
  userName : String
deriving DecidableEq, Repr

/-- One value received by the broadcaster's `select` (lines 70-89), tagged with the
global channel it arrived on. -/
inductive Event where
  | globalMessages (msg : String)
  | entering (c : client)
  | leaving (c : client)
deriving DecidableEq, Repr

/-- A channel operation the broadcaster performed on a client's sink. -/
inductive Action where
  | send (ch : Chan) (text : String)
  | close (ch : Chan)
deriving DecidableEq, Repr

/-- The run-time failures of the Go operations used by the program. -/
inductive Panic where
  | sendOnClosed (ch : Chan)
  | closeOfClosed (ch : Chan)
  | sliceBounds (high : Int)
deriving DecidableEq, Repr

/-- The order in which one `range` loop visits the keys of the map. -/
abbrev MapOrder := List client → List client

/-- A `MapOrder` is admissible when it visits every key of the map once. -/
def MapOrder.Valid (r : MapOrder) : Prop := ∀ m : List client, (r m).Perm m

/-- The broadcaster's local map together with the set of closed channels. -/
structure State where
  listOfActiveClients : List client
  closed : List Chan
deriving DecidableEq, Repr

/-- The state at the start of `broadcaster` (line 64): an empty map, no sink closed. -/
def State.init : State := { listOfActiveClients := [], closed := [] }

/-! ## Channel and map primitives -/

/-- The operation `ch <- text`: panics when `ch` is closed. -/
def chanSend (closed : List Chan) (ch : Chan) (text : String) : Except Panic Action :=
  if ch ∈ closed then .error (.sendOnClosed ch) else .ok (.send ch text)

/-- The operation `close(ch)`: panics when `ch` is already closed. -/
def chanClose (closed : List Chan) (ch : Chan) : Except Panic (List Chan) :=
  if ch ∈ closed then .error (.closeOfClosed ch) else .ok (ch :: closed)

/-- The assignment `m[c] = true`: a key already present is not added again. -/
def mapInsert (c : client) (m : List client) : List client :=
  if c ∈ m then m else m ++ [c]

/-- The call `delete(m, c)`: a no-op when the key is absent. -/
def mapDelete (c : client) (m : List client) : List client :=
  m.filter (fun d => d ≠ c)

/-! ## makeClientListString (lines 153-159) -/

/-- The loop of `makeClientListString` over the keys in the order `range` yields
them: `clientListString += activeClient.userName + " "`. -/
def makeClientListString (r : MapOrder) (clientMap : List client) : String :=
  (r clientMap).foldl (fun clientListString activeClient =>
    clientListString ++ (activeClient.userName ++ " ")) ""

/-! ## broadcaster (lines 61-91) -/

/-- The loop of lines 75-77 over the keys in visiting order: one send per key, the
first send on a closed sink panics. -/
def sendAll (closed : List Chan) (msg : String) : List client → Except Panic (List Action)
  | [] => .ok []
  | activeClient :: rest =>
    match chanSend closed activeClient.msgChannel msg with
    | .error p => .error p
    | .ok a =>
      match sendAll closed msg rest with
      | .error p => .error p
      | .ok as => .ok (a :: as)

/-- One iteration of the `select` loop: the new state and the channel operations
performed, or the panic that ends the process. -/
def broadcasterStep (r : MapOrder) (st : State) : Event → Except Panic (State × List Action)
  | .globalMessages msg =>
    match sendAll st.closed msg (r st.listOfActiveClients) with
    | .error p => .error p
    | .ok acts => .ok (st, acts)
  | .entering activeClient =>
    let m := mapInsert activeClient st.listOfActiveClients
    let activeClientListString := makeClientListString r m
    match chanSend st.closed activeClient.msgChannel
        ("Also here: " ++ activeClientListString) with
    | .error p => .error p
    | .ok a => .ok ({ st with listOfActiveClients := m }, [a])
  | .leaving activeClient =>
    let m := mapDelete activeClient st.listOfActiveClients
    match chanClose st.closed activeClient.msgChannel with
    | .error p => .error p
    | .ok closed => .ok ({ listOfActiveClients := m, closed := closed },
        [.close activeClient.msgChannel])

/-- The `for` loop of `broadcaster` over the events in the order the `select`
received them.  `rs n` is the map order of the loop iteration number `n`.  The
result is the final state and, for each event, the operations it caused. -/
def broadcaster (rs : Nat → MapOrder) (st : State) :
    List Event → Except Panic (State × List (Event × List Action))
  | [] => .ok (st, [])
  | ev :: evs =>
    match broadcasterStep (rs 0) st ev with
    | .error p => .error p
    | .ok (st1, acts) =>
      match broadcaster (fun n => rs (n + 1)) st1 evs with
      | .error p => .error p
      | .ok (st2, hist) => .ok (st2, (ev, acts) :: hist)

/-- The map order that visits the keys in the order they are stored. -/
def storedOrder : Nat → MapOrder := fun _ m => m

/-! ## Observations on a run -/

/-- The texts sent on channel `ch` among some operations, in order. -/
def textsTo (ch : Chan) (acts : List Action) : List String :=
  acts.filterMap (fun a =>
    match a with
    | .send ch1 text => if ch1 = ch then some text else none
    | .close _ => none)

/-- For each message event of a run, in order: its text and the texts sent on
channel `ch` while it was processed. -/
def deliveriesTo (ch : Chan) : List (Event × List Action) → List (String × List String)
  | [] => []
  | (.globalMessages msg, acts) :: hist => (msg, textsTo ch acts) :: deliveriesTo ch hist
  | (_, _) :: hist => deliveriesTo ch hist

/-- All channel operations of a run, in the order they were performed. -/
def allActions (hist : List (Event × List Action)) : List Action :=
  hist.flatMap (fun p => p.2)

/-- Checks a sequence of channel operations against the channels closed before
it: no close of a closed channel, no send on a closed channel. -/
def traceSafe (closed : List Chan) : List Action → Bool
  | [] => true
  | .send ch _ :: rest => !(decide (ch ∈ closed)) && traceSafe closed rest
  | .close ch :: rest => !(decide (ch ∈ closed)) && traceSafe (ch :: closed) rest

/-- The clients named by the join and leave events of a sequence. -/
def clientsOf : List Event → List client
  | [] => []
  | .globalMessages _ :: evs => clientsOf evs
  | .entering c :: evs => c :: clientsOf evs
  | .leaving c :: evs => c :: clientsOf evs

/-- The most recent join or leave event for client `c` in a sequence. -/
def lastMembershipEvent (c : client) (evs : List Event) : Option Event :=
  evs.reverse.find? (fun e => decide (e = .entering c ∨ e = .leaving c))

/-- The effect of one event on the map alone (lines 82 and 87; a message leaves
the map as it is). -/
def mapAfter (m : List client) : Event → List client
  | .globalMessages _ => m
  | .entering c => mapInsert c m
  | .leaving c => mapDelete c m

/-- For each message event of a sequence applied to the map `m`, in order: its text
and what client `c` is to hear of it, the text once when `c` is a key of the map at
that moment and nothing otherwise. -/
def heardBy (c : client) : List client → List Event → List (String × List String)
  | _, [] => []
  | m, .globalMessages msg :: evs =>
    (msg, if c ∈ m then [msg] else []) :: heardBy c m evs
  | m, ev :: evs => heardBy c (mapAfter m ev) evs

/-! ## The connection side (lines 96-185) -/

/-- What one accepted connection presents to the goroutines that own it.
`nameReply` is the byte stream the remote side supplies after the prompt, up to
the end of the stream; `lines` are the tokens `input.Scan()` yields before it
returns false; `closed` tells whether `Close` has already been called on the
connection when the handler probes it (line 124). -/
structure Conn where
  nameReply : List Char
  lines : List String
  closed : Bool
deriving DecidableEq, Repr

/-- What the goroutines of one connection do, in program order. -/
inductive Effect where
  | newTimer
  | goClientWriter (ch : Chan)
  | connWrite (text : String)
  | sinkSend (ch : Chan) (text : String)
  | publish (ev : Event)
  | goMonitor (c : client)
  | timerReset
  | connClose
deriving DecidableEq, Repr

/-- The call `reader.ReadBytes(delim)` of package bufio: the bytes up to and
including the first `delim`; when the stream ends first, the bytes read so far and
an error (`true`). -/
def readBytes (delim : Char) : List Char → List Char × Bool
  | [] => ([], true)
  | b :: rest =>
    if b = delim then ([b], false)
    else ((b :: (readBytes delim rest).1), (readBytes delim rest).2)

/-- The slice expression `b[:high]` of Go: panics when `high` is out of range. -/
def sliceTo (b : List Char) (high : Int) : Except Panic (List Char) :=
  if high < 0 ∨ (b.length : Int) < high then .error (.sliceBounds high)
  else .ok (b.take high.toNat)

/-- The function `getUserName` (lines 141-151).  The error of `ReadBytes` is
discarded (`userName, _ :=`), the last byte is cut off, the rest is cast to a
string. -/
def getUserName (conn : Conn) : Except Panic String :=
  let userName := (readBytes (Char.ofNat 0x0a) conn.nameReply).1
  match sliceTo userName ((userName.length : Int) - 1) with
  | .error p => .error p
  | .ok cleanUserName => .ok (String.mk cleanUserName)

/-- The call `conn.Read(buffer)` of line 180 with the nil `buffer`, as package net
answers it: an error (`true`) on a connection that was closed locally, and
`0, nil` otherwise, since a read into an empty buffer returns at once. -/
def connReadEmpty (conn : Conn) : Nat × Bool :=
  if conn.closed then (0, true) else (0, false)

/-- The function `connectionIsClosed` (lines 178-185). -/
def connectionIsClosed (conn : Conn) : Bool :=
  let err := (connReadEmpty conn).2
  if err then true else false

/-- The loop of lines 117-120 over the scanned lines, appending to the effects so
far. -/
def scanLoop (who : String) (log : List Effect) (lines : List String) : List Effect :=
  lines.foldl (fun log text =>
    log ++ [.publish (.globalMessages (who ++ ": " ++ text)), .timerReset]) log

/-- Lines 124-128: what the handler does once its read loop has stopped. -/
def handlerExit (conn : Conn) (who : String) (newClient : client) : List Effect :=
  if !connectionIsClosed conn then
    [.publish (.leaving newClient), .publish (.globalMessages (who ++ " has left")),
     .connClose]
  else []

/-- The function `handleConnection` (lines 96-129) for the connection whose sink
`make` named `outMessageChannel`: the effects in program order, or the panic of
`getUserName`. -/
def handleConnection (outMessageChannel : Chan) (conn : Conn) : Except Panic (List Effect) :=
  let log : List Effect := [.newTimer, .goClientWriter outMessageChannel]
  let log := log ++ [.connWrite "Enter a user name: "]
  match getUserName conn with
  | .error p => .error p
  | .ok who =>
    let log := log ++ [.sinkSend outMessageChannel ("You are " ++ who)]
    let log := log ++ [.publish (.globalMessages (who ++ " has arrived"))]
    let newClient : client := { msgChannel := outMessageChannel, userName := who }
    let log := log ++ [.publish (.entering newClient)]
    let log := log ++ [.goMonitor newClient]
    let log := scanLoop who log conn.lines
    .ok (log ++ handlerExit conn who newClient)

/-- The function `monitorTimerDisconnect` (lines 171-176) from the moment the
receive `<-timer.C` returns. -/
def monitorTimerDisconnect (c : client) : List Effect :=
  [.publish (.leaving c), .publish (.globalMessages (c.userName ++ " has left")), .connClose]

/-- The events a list of effects puts on the broadcaster's three channels. -/
def published (effs : List Effect) : List Event :=
  effs.filterMap (fun e =>
    match e with
    | .publish ev => some ev
    | _ => none)

/-- What ends the life of a joined connection: the read loop of the handler stops
(`input.Scan()` is false), or the idle timer expires. -/
inductive Ending where
  | readEnds
  | timerExpires
deriving DecidableEq, Repr

/-- The part of a joined connection's state that teardown depends on: the
connection, whether the handler has left its read loop, whether the monitor has
received from `timer.C`. -/
structure Teardown where
  conn : Conn
  handlerDone : Bool
  monitorDone : Bool
deriving DecidableEq, Repr

/-- The effects of one `Ending` on the connection of client `c`.  When the read
loop stops, lines 124-128 run once.  When the timer expires, lines 173-175 run
once: the timer is created at line 99 and reset at line 119 and never stopped, so
it also expires after the handler has returned.  Either `conn.Close()` leaves the
connection closed. -/
def ending (c : client) (s : Teardown) : Ending → Teardown × List Effect
  | .readEnds =>
    if s.handlerDone then (s, [])
    else
      let effs := handlerExit s.conn c.userName c
      ({ s with handlerDone := true,
                conn := { s.conn with closed := s.conn.closed || decide (.connClose ∈ effs) } },
        effs)
  | .timerExpires =>
    if s.monitorDone then (s, [])
    else
      ({ s with monitorDone := true, conn := { s.conn with closed := true } },
        monitorTimerDisconnect c)

/-- The effects of a sequence of endings on one joined connection, in order. -/
def teardown (c : client) (s : Teardown) : List Ending → List Effect
  | [] => []
  | e :: es => (ending c s e).2 ++ teardown c (ending c s e).1 es

/-! ## Basic facts about the primitives -/

theorem chanSend_ok {closed : List Chan} {ch : Chan} {text : String} {a : Action}
    (h : chanSend closed ch text = .ok a) : ch ∉ closed ∧ a = .send ch text := by
  unfold chanSend at h
  split at h
  · cases h
  · injection h with h
    exact ⟨by assumption, h.symm⟩

theorem chanSend_open {closed : List Chan} {ch : Chan} (text : String) (h : ch ∉ closed) :
    chanSend closed ch text = .ok (.send ch text) := by
  simp [chanSend, h]

theorem chanClose_ok {closed closed1 : List Chan} {ch : Chan}
    (h : chanClose closed ch = .ok closed1) : ch ∉ closed ∧ closed1 = ch :: closed := by
  unfold chanClose at h
  split at h
  · cases h
  · injection h with h
    exact ⟨by assumption, h.symm⟩

theorem mem_mapInsert {c d : client} {m : List client} :
    c ∈ mapInsert d m ↔ c = d ∨ c ∈ m := by
  unfold mapInsert
  split
  · constructor
    · intro h; exact Or.inr h
    · rintro (rfl | h)
      · assumption
      · exact h
  · simp [or_comm]

theorem mem_mapDelete {c d : client} {m : List client} :
    c ∈ mapDelete d m ↔ c ∈ m ∧ c ≠ d := by
  simp [mapDelete]

theorem nodup_mapInsert {d : client} {m : List client} (h : m.Nodup) :
    (mapInsert d m).Nodup := by
  unfold mapInsert
  split
  · exact h
  · rename_i hd
    rw [List.nodup_append]
    refine ⟨h, List.nodup_singleton d, ?_⟩
    intro a ha hb
    simp at hb
    subst hb
    exact hd ha

theorem nodup_mapDelete {d : client} {m : List client} (h : m.Nodup) :
    (mapDelete d m).Nodup := by
  unfold mapDelete
  exact h.filter _

/-! ## One step of the broadcaster -/

theorem broadcasterStep_msg_ok {r : MapOrder} {st st1 : State} {msg : String} {acts : List Action}
    (h : broadcasterStep r st (.globalMessages msg) = .ok (st1, acts)) :
    st1 = st ∧ sendAll st.closed msg (r st.listOfActiveClients) = .ok acts := by
  simp only [broadcasterStep] at h
  split at h
  · cases h
  · rename_i acts1 h1
    injection h with h
    injection h with h2 h3
    subst h2 h3
    exact ⟨rfl, h1⟩

theorem broadcasterStep_entering_ok {r : MapOrder} {st st1 : State} {c : client} {acts : List Action}
    (h : broadcasterStep r st (.entering c) = .ok (st1, acts)) :
    c.msgChannel ∉ st.closed ∧
    st1 = { st with listOfActiveClients := mapInsert c st.listOfActiveClients } ∧
    acts = [.send c.msgChannel
      ("Also here: " ++ makeClientListString r (mapInsert c st.listOfActiveClients))] := by
  simp only [broadcasterStep] at h
  split at h
  · cases h
  · rename_i a h1
    obtain ⟨h2, h3⟩ := chanSend_ok h1
    injection h with h
    injection h with h4 h5
    subst h3 h4 h5
    exact ⟨h2, rfl, rfl⟩

theorem broadcasterStep_leaving_ok {r : MapOrder} {st st1 : State} {c : client} {acts : List Action}
    (h : broadcasterStep r st (.leaving c) = .ok (st1, acts)) :
    c.msgChannel ∉ st.closed ∧
    st1 = { listOfActiveClients := mapDelete c st.listOfActiveClients,
            closed := c.msgChannel :: st.closed } ∧
    acts = [.close c.msgChannel] := by
  simp only [broadcasterStep] at h
  split at h
  · cases h
  · rename_i a h1
    obtain ⟨h2, h3⟩ := chanClose_ok h1
    injection h with h
    injection h with h4 h5
    subst h3 h4 h5
    exact ⟨h2, rfl, rfl⟩

theorem broadcaster_cons_ok {rs : Nat → MapOrder} {st st2 : State} {ev : Event} {evs : List Event}
    {hist : List (Event × List Action)}
    (h : broadcaster rs st (ev :: evs) = .ok (st2, hist)) :
    ∃ st1 acts hist1, broadcasterStep (rs 0) st ev = .ok (st1, acts) ∧
      broadcaster (fun n => rs (n + 1)) st1 evs = .ok (st2, hist1) ∧ hist = (ev, acts) :: hist1 := by
  simp only [broadcaster] at h
  split at h
  · cases h
  · rename_i st1 acts h1
    split at h
    · cases h
    · rename_i st3 hist1 h2
      injection h with h
      injection h with h3 h4
      subst h3 h4
      exact ⟨st1, acts, hist1, h1, h2, rfl⟩

/-! ## The active set along a run -/

theorem lastMembershipEvent_cons (c : client) (ev : Event) (evs : List Event) :
    lastMembershipEvent c (ev :: evs) =
      (lastMembershipEvent c evs).or
        (if ev = .entering c ∨ ev = .leaving c then some ev else none) := by
  simp only [lastMembershipEvent, List.reverse_cons, List.find?_append, List.find?_singleton,
    decide_eq_true_eq]

theorem lastMembershipEvent_some {c : client} {e : Event} {evs : List Event}
    (h : lastMembershipEvent c evs = some e) : e = .entering c ∨ e = .leaving c := by
  have := List.find?_some h
  simpa using this

theorem broadcasterStep_mem {r : MapOrder} {st st1 : State} {ev : Event} {acts : List Action}
    (h : broadcasterStep r st ev = .ok (st1, acts)) (c : client) :
    c ∈ st1.listOfActiveClients ↔
      ev = .entering c ∨ (ev ≠ .leaving c ∧ c ∈ st.listOfActiveClients) := by
  cases ev with
  | globalMessages msg =>
    obtain ⟨h1, _⟩ := broadcasterStep_msg_ok h
    subst h1
    simp
  | entering d =>
    obtain ⟨_, h1, _⟩ := broadcasterStep_entering_ok h
    subst h1
    simp only [mem_mapInsert, Event.entering.injEq, ne_eq, reduceCtorEq, not_false_eq_true,
      true_and]
    constructor
    · rintro (h | h)
      · exact Or.inl h.symm
      · exact Or.inr h
    · rintro (h | h)
      · exact Or.inl h.symm
      · exact Or.inr h
  | leaving d =>
    obtain ⟨_, h1, _⟩ := broadcasterStep_leaving_ok h
    subst h1
    simp only [mem_mapDelete, reduceCtorEq, ne_eq, Event.leaving.injEq, false_or]
    constructor
    · rintro ⟨h1, h2⟩
      exact ⟨fun h => h2 h.symm, h1⟩
    · rintro ⟨h1, h2⟩
      exact ⟨h2, fun h => h1 h.symm⟩

theorem broadcasterStep_nodup {r : MapOrder} {st st1 : State} {ev : Event} {acts : List Action}
    (h : broadcasterStep r st ev = .ok (st1, acts)) (hn : st.listOfActiveClients.Nodup) :
    st1.listOfActiveClients.Nodup := by
  cases ev with
  | globalMessages msg =>
    obtain ⟨h1, _⟩ := broadcasterStep_msg_ok h
    subst h1
    exact hn
  | entering d =>
    obtain ⟨_, h1, _⟩ := broadcasterStep_entering_ok h
    subst h1
    exact nodup_mapInsert hn
  | leaving d =>
    obtain ⟨_, h1, _⟩ := broadcasterStep_leaving_ok h
    subst h1
    exact nodup_mapDelete hn

theorem broadcaster_nodup {evs : List Event} : ∀ {rs : Nat → MapOrder} {st st2 : State}
    {hist : List (Event × List Action)},
    broadcaster rs st evs = .ok (st2, hist) → st.listOfActiveClients.Nodup →
    st2.listOfActiveClients.Nodup := by
  induction evs with
  | nil =>
    intro rs st st2 hist h hn
    simp only [broadcaster] at h
    injection h with h
    injection h with h1 h2
    subst h1
    exact hn
  | cons ev evs ih =>
    intro rs st st2 hist h hn
    obtain ⟨st1, acts, hist1, h1, h2, _⟩ := broadcaster_cons_ok h
    exact ih h2 (broadcasterStep_nodup h1 hn)

theorem broadcaster_mem {evs : List Event} (c : client) : ∀ {rs : Nat → MapOrder} {st st2 : State}
    {hist : List (Event × List Action)},
    broadcaster rs st evs = .ok (st2, hist) →
    (c ∈ st2.listOfActiveClients ↔
      lastMembershipEvent c evs = some (.entering c) ∨
      (lastMembershipEvent c evs = none ∧ c ∈ st.listOfActiveClients)) := by
  induction evs with
  | nil =>
    intro rs st st2 hist h
    simp only [broadcaster] at h
    injection h with h
    injection h with h1 h2
    subst h1
    simp [lastMembershipEvent]
  | cons ev evs ih =>
    intro rs st st2 hist h
    obtain ⟨st1, acts, hist1, h1, h2, _⟩ := broadcaster_cons_ok h
    rw [ih h2, lastMembershipEvent_cons, broadcasterStep_mem h1 c]
    cases hl : lastMembershipEvent c evs with
    | some e => simp
    | none =>
      simp only [Option.or, reduceCtorEq, false_and, true_and, false_or]
      by_cases he : ev = .entering c
      · subst he
        simp
      · by_cases hv : ev = .leaving c
        · subst hv
          simp
        · simp [he, hv]

/-- C1: after any sequence of join, leave and message events that the broadcaster
processes from the empty map, a client is in the active set exactly when its most
recent join or leave event is a join, and the set has no duplicate entry; a message
event leaves the set as it is, and a join of a client already present leaves the set
as it is. -/
theorem active_set_is_joined_not_left (rs : Nat → MapOrder) (evs : List Event)
    (st : State) (hist : List (Event × List Action))
    (h : broadcaster rs State.init evs = .ok (st, hist)) :
    (∀ c : client, c ∈ st.listOfActiveClients ↔
        lastMembershipEvent c evs = some (.entering c)) ∧
    st.listOfActiveClients.Nodup ∧
    (∀ (r : MapOrder) (s s1 : State) (msg : String) (acts : List Action),
        broadcasterStep r s (.globalMessages msg) = .ok (s1, acts) →
        s1.listOfActiveClients = s.listOfActiveClients) ∧
    (∀ (r : MapOrder) (s s1 : State) (c : client) (acts : List Action),
        c ∈ s.listOfActiveClients → broadcasterStep r s (.entering c) = .ok (s1, acts) →
        s1.listOfActiveClients = s.listOfActiveClients) := by
  refine ⟨?_, ?_, ?_, ?_⟩
  · intro c
    rw [broadcaster_mem c h]
    simp [State.init]
  · exact broadcaster_nodup h (by simp [State.init])
  · intro r s s1 msg acts hs
    rw [(broadcasterStep_msg_ok hs).1]
  · intro r s s1 c acts hc hs
    obtain ⟨_, h1, _⟩ := broadcasterStep_entering_ok hs
    subst h1
    simp [mapInsert, hc]

/-- With alice, a message, bob, alice again, then alice leaving, the set is bob alone;
bob's most recent event is a join and alice's is a leave. -/
theorem active_set_is_joined_not_left_witness :
    broadcaster storedOrder State.init
        [.entering ⟨0, "alice"⟩, .globalMessages "hi", .entering ⟨1, "bob"⟩,
         .entering ⟨0, "alice"⟩, .leaving ⟨0, "alice"⟩]
      = .ok (⟨[⟨1, "bob"⟩], [0]⟩,
          [(.entering ⟨0, "alice"⟩, [.send 0 "Also here: alice "]),
           (.globalMessages "hi", [.send 0 "hi"]),
           (.entering ⟨1, "bob"⟩, [.send 1 "Also here: alice bob "]),
           (.entering ⟨0, "alice"⟩, [.send 0 "Also here: alice bob "]),
           (.leaving ⟨0, "alice"⟩, [.close 0])]) ∧
    ((⟨1, "bob"⟩ : client) ∈ [(⟨1, "bob"⟩ : client)] ↔
      lastMembershipEvent ⟨1, "bob"⟩
        [.entering ⟨0, "alice"⟩, .globalMessages "hi", .entering ⟨1, "bob"⟩,
         .entering ⟨0, "alice"⟩, .leaving ⟨0, "alice"⟩] = some (.entering ⟨1, "bob"⟩)) ∧
    ((⟨0, "alice"⟩ : client) ∈ [(⟨1, "bob"⟩ : client)] ↔
      lastMembershipEvent ⟨0, "alice"⟩
        [.entering ⟨0, "alice"⟩, .globalMessages "hi", .entering ⟨1, "bob"⟩,
         .entering ⟨0, "alice"⟩, .leaving ⟨0, "alice"⟩] = some (.entering ⟨0, "alice"⟩)) :=
  have h := active_set_is_joined_not_left storedOrder
    [.entering ⟨0, "alice"⟩, .globalMessages "hi", .entering ⟨1, "bob"⟩,
     .entering ⟨0, "alice"⟩, .leaving ⟨0, "alice"⟩] ⟨[⟨1, "bob"⟩], [0]⟩ _ rfl
  ⟨rfl, h.1 ⟨1, "bob"⟩, h.1 ⟨0, "alice"⟩⟩

/-! ## The join step and the roster line -/

theorem string_join_cons (x : String) (xs : List String) :
    String.join (x :: xs) = x ++ String.join xs := by
  simp only [String.join, List.foldl_cons]
  have hgen : ∀ (ys : List String) (a b : String),
      ys.foldl (fun r s => r ++ s) (a ++ b) = a ++ ys.foldl (fun r s => r ++ s) b := by
    intro ys
    induction ys with
    | nil => intro a b; rfl
    | cons y ys ihy =>
      intro a b
      simp only [List.foldl_cons]
      rw [String.append_assoc, ihy]
  have := hgen xs x ""
  simpa using this

theorem string_join_append (xs ys : List String) :
    String.join (xs ++ ys) = String.join xs ++ String.join ys := by
  induction xs with
  | nil => simp [String.join]
  | cons x xs ih => rw [List.cons_append, string_join_cons, string_join_cons, ih,
      String.append_assoc]

theorem foldl_append_names (l : List client) (acc : String) :
    l.foldl (fun clientListString activeClient =>
      clientListString ++ (activeClient.userName ++ " ")) acc =
    acc ++ String.join (l.map (fun d => d.userName ++ " ")) := by
  induction l generalizing acc with
  | nil => simp [String.join]
  | cons d l ih =>
    simp only [List.foldl_cons, List.map_cons]
    rw [ih, string_join_cons, String.append_assoc]

theorem makeClientListString_eq (r : MapOrder) (m : List client) :
    makeClientListString r m = String.join ((r m).map (fun d => d.userName ++ " ")) := by
  unfold makeClientListString
  rw [foldl_append_names]
  simp

/-- C3: in any state whose map is duplicate-free and in which the sink of `c` is
open, the join step for `c` puts `c` into the map and performs exactly one channel
operation, a send on the sink of `c`, of the line "Also here: " followed by
name + " " for every client of the new map, each taken once, in the order the
range loop visits them; a name carried by k clients of the map occurs k times. -/
theorem join_sends_roster_to_joiner (r : MapOrder) (hr : r.Valid) (st : State) (c : client)
    (hS : st.listOfActiveClients.Nodup) (hopen : c.msgChannel ∉ st.closed) :
    ∃ order : List client,
      order.Perm (mapInsert c st.listOfActiveClients) ∧ order.Nodup ∧
      (∀ d : client, d ∈ order ↔ d = c ∨ d ∈ st.listOfActiveClients) ∧
      (∀ n : String, (order.map (fun d => d.userName)).count n =
        (mapInsert c st.listOfActiveClients).countP (fun d => d.userName = n)) ∧
      broadcasterStep r st (.entering c) =
        .ok ({ st with listOfActiveClients := mapInsert c st.listOfActiveClients },
          [.send c.msgChannel
            ("Also here: " ++ String.join (order.map (fun d => d.userName ++ " ")))]) := by
  have hp : (r (mapInsert c st.listOfActiveClients)).Perm (mapInsert c st.listOfActiveClients) :=
    hr _
  refine ⟨r (mapInsert c st.listOfActiveClients), hp, ?_, ?_, ?_, ?_⟩
  · exact hp.nodup_iff.mpr (nodup_mapInsert hS)
  · intro d
    rw [hp.mem_iff, mem_mapInsert]
  · intro n
    rw [List.count_eq_countP, List.countP_map, hp.countP_eq]
    congr 1
  · simp only [broadcasterStep, chanSend_open _ hopen, makeClientListString_eq]

theorem perm_pair_cases {α : Type} {a b : α} {l : List α} (h : l.Perm [a, b]) :
    l = [a, b] ∨ l = [b, a] := by
  have hl := h.length_eq
  match l, h, hl with
  | [x, y], h, _ =>
    have hx : x ∈ [a, b] := h.mem_iff.1 (by simp)
    have hy : y ∈ [a, b] := h.mem_iff.1 (by simp)
    have ha : a ∈ [x, y] := h.mem_iff.2 (by simp)
    have hb : b ∈ [x, y] := h.mem_iff.2 (by simp)
    simp only [List.mem_cons, List.mem_singleton, List.not_mem_nil, or_false] at hx hy ha hb
    rcases hx with rfl | rfl
    · rcases hy with rfl | rfl
      · rcases hb with rfl | rfl <;> exact Or.inl rfl
      · exact Or.inl rfl
    · rcases hy with rfl | rfl
      · exact Or.inr rfl
      · rcases ha with rfl | rfl <;> exact Or.inl rfl

/-- With alice active, bob joins: visiting the keys in stored order the line sent to
bob is "Also here: alice bob "; whatever the order of the range loop, it is that
line or "Also here: bob alice ", and it is the only operation of the step. -/
theorem join_sends_roster_to_joiner_witness :
    broadcasterStep (fun m => m) ⟨[⟨0, "alice"⟩], []⟩ (.entering ⟨1, "bob"⟩) =
      .ok (⟨[⟨0, "alice"⟩, ⟨1, "bob"⟩], []⟩, [.send 1 "Also here: alice bob "]) ∧
    (∀ r : MapOrder, r.Valid →
      broadcasterStep r ⟨[⟨0, "alice"⟩], []⟩ (.entering ⟨1, "bob"⟩) =
        .ok (⟨[⟨0, "alice"⟩, ⟨1, "bob"⟩], []⟩, [.send 1 "Also here: alice bob "]) ∨
      broadcasterStep r ⟨[⟨0, "alice"⟩], []⟩ (.entering ⟨1, "bob"⟩) =
        .ok (⟨[⟨0, "alice"⟩, ⟨1, "bob"⟩], []⟩, [.send 1 "Also here: bob alice "])) := by
  refine ⟨rfl, ?_⟩
  intro r hr
  obtain ⟨order, hp, -, -, -, hs⟩ :=
    join_sends_roster_to_joiner r hr ⟨[⟨0, "alice"⟩], []⟩ ⟨1, "bob"⟩ (by decide) (by decide)
  have hm : mapInsert ⟨1, "bob"⟩ [(⟨0, "alice"⟩ : client)] = [⟨0, "alice"⟩, ⟨1, "bob"⟩] := by
    decide
  rw [hm] at hp
  rcases perm_pair_cases hp with h | h
  · left
    rw [hs, h]
    rfl
  · right
    rw [hs, h]
    rfl

/-! ## The leave step -/

theorem mapDelete_absent {c : client} {m : List client} (h : c ∉ m) : mapDelete c m = m := by
  unfold mapDelete
  rw [List.filter_eq_self]
  intro d hd
  simp only [ne_eq, decide_not, Bool.not_eq_eq_eq_not, Bool.not_true, decide_eq_false_iff_not]
  rintro rfl
  exact h hd

/-- C5, as the code has it: a leave event for a client that is not in the map leaves
the map as it is and sends nothing, and it still closes the sink of that client: an
open sink becomes closed (one close operation), a sink that is closed already makes
the close panic. -/
theorem leave_of_absent_client_closes (r : MapOrder) (st : State) (c : client)
    (hc : c ∉ st.listOfActiveClients) :
    broadcasterStep r st (.leaving c) =
      if c.msgChannel ∈ st.closed then .error (.closeOfClosed c.msgChannel)
      else .ok ({ st with closed := c.msgChannel :: st.closed }, [.close c.msgChannel]) := by
  by_cases h : c.msgChannel ∈ st.closed
  · simp only [broadcasterStep, chanClose, mapDelete_absent hc, h, if_true]
  · simp only [broadcasterStep, chanClose, mapDelete_absent hc, h, if_false]

/-- For alice, who has left (sink 0 closed, map empty), and for carol, who never
joined (sink 2 open). -/
theorem leave_of_absent_client_closes_witness :
    broadcasterStep (fun m => m) ⟨[⟨1, "bob"⟩], [0]⟩ (.leaving ⟨0, "alice"⟩) = .error (.closeOfClosed 0) ∧
    broadcasterStep (fun m => m) ⟨[⟨1, "bob"⟩], [0]⟩ (.leaving ⟨2, "carol"⟩) =
      .ok (⟨[⟨1, "bob"⟩], [2, 0]⟩, [.close 2]) :=
  ⟨leave_of_absent_client_closes (fun m => m) ⟨[⟨1, "bob"⟩], [0]⟩ ⟨0, "alice"⟩ (by decide),
   leave_of_absent_client_closes (fun m => m) ⟨[⟨1, "bob"⟩], [0]⟩ ⟨2, "carol"⟩ (by decide)⟩

/-- C5 as stated fails: in the empty state alice is not in the map, and a leave
event for alice is not a no-op, it closes her sink; a second leave event for her does
not repeat the effect of the first, it panics. -/
theorem leave_of_absent_client_not_noop :
    (⟨0, "alice"⟩ : client) ∉ State.init.listOfActiveClients ∧
    broadcasterStep (fun m => m) State.init (.leaving ⟨0, "alice"⟩) = .ok (⟨[], [0]⟩, [.close 0]) ∧
    broadcasterStep (fun m => m) State.init (.leaving ⟨0, "alice"⟩) ≠ .ok (State.init, []) ∧
    (⟨0, "alice"⟩ : client) ∉ (⟨[], [0]⟩ : State).listOfActiveClients ∧
    broadcasterStep (fun m => m) ⟨[], [0]⟩ (.leaving ⟨0, "alice"⟩) = .error (.closeOfClosed 0) := by
  refine ⟨by decide, rfl, ?_, by decide, rfl⟩
  intro h
  have h2 : broadcasterStep (fun m => m) State.init (.leaving ⟨0, "alice"⟩) = .ok (⟨[], [0]⟩, [.close 0]) :=
    rfl
  rw [h2] at h
  injection h with h
  injection h with h3 h4
  cases h4

/-! ## A message event -/

theorem sendAll_open {closed : List Chan} (msg : String) {l : List client}
    (h : ∀ d ∈ l, d.msgChannel ∉ closed) :
    sendAll closed msg l = .ok (l.map (fun d => Action.send d.msgChannel msg)) := by
  induction l with
  | nil => rfl
  | cons d l ih =>
    have hd : d.msgChannel ∉ closed := h d (List.mem_cons_self _ _)
    have hl : ∀ e ∈ l, e.msgChannel ∉ closed := fun e he => h e (List.mem_cons_of_mem _ he)
    simp only [sendAll, chanSend_open msg hd, ih hl, List.map_cons]

theorem sendAll_ok {closed : List Chan} {msg : String} {l : List client} {acts : List Action}
    (h : sendAll closed msg l = .ok acts) :
    (∀ d ∈ l, d.msgChannel ∉ closed) ∧ acts = l.map (fun d => Action.send d.msgChannel msg) := by
  induction l generalizing acts with
  | nil =>
    simp only [sendAll] at h
    injection h with h
    subst h
    simp
  | cons d l ih =>
    simp only [sendAll] at h
    split at h
    · cases h
    · rename_i a ha
      split at h
      · cases h
      · rename_i as has
        obtain ⟨h1, h2⟩ := chanSend_ok ha
        obtain ⟨h3, h4⟩ := ih has
        injection h with h
        subst h h2 h4
        refine ⟨?_, rfl⟩
        intro e he
        rcases List.mem_cons.1 he with rfl | he
        · exact h1
        · exact h3 e he

theorem textsTo_sends (ch : Chan) (msg : String) (l : List client) :
    textsTo ch (l.map (fun d => Action.send d.msgChannel msg)) =
      List.replicate (l.countP (fun d => d.msgChannel = ch)) msg := by
  induction l with
  | nil => rfl
  | cons d l ih =>
    unfold textsTo at ih ⊢
    simp only [List.map_cons, List.filterMap_cons, List.countP_cons]
    by_cases hd : d.msgChannel = ch
    · simp [hd, ih, List.replicate_succ]
    · simp [hd, ih]

theorem countP_own_sink {c : client} {l : List client} (hn : l.Nodup)
    (hown : ∀ d ∈ l, d.msgChannel = c.msgChannel → d = c) :
    l.countP (fun d => d.msgChannel = c.msgChannel) = if c ∈ l then 1 else 0 := by
  have h1 : l.countP (fun d => d.msgChannel = c.msgChannel) = l.count c := by
    rw [List.count_eq_countP]
    apply List.countP_congr
    intro d hd
    simp only [decide_eq_true_eq, beq_iff_eq]
    constructor
    · exact hown d hd
    · rintro rfl
      rfl
  rw [h1]
  split
  · rename_i hc
    exact List.count_eq_one_of_mem hn hc
  · rename_i hc
    exact List.count_eq_zero_of_not_mem hc

theorem textsTo_broadcast {r : MapOrder} (hr : r.Valid) {c : client} {m : List client}
    (msg : String) (hn : m.Nodup)
    (hown : ∀ d ∈ m, d.msgChannel = c.msgChannel → d = c) :
    textsTo c.msgChannel ((r m).map (fun d => Action.send d.msgChannel msg)) =
      if c ∈ m then [msg] else [] := by
  rw [textsTo_sends, (hr m).countP_eq, countP_own_sink hn hown]
  split <;> rfl

theorem roster_contains_member (r : MapOrder) (hr : r.Valid) (m : List client) (c : client)
    (hc : c ∈ m) :
    ∃ pre post : String,
      "Also here: " ++ makeClientListString r m =
        "Also here: " ++ pre ++ (c.userName ++ " ") ++ post := by
  have hc1 : c ∈ r m := (hr m).mem_iff.2 hc
  obtain ⟨l1, l2, hl⟩ := List.append_of_mem hc1
  refine ⟨String.join (l1.map (fun d => d.userName ++ " ")),
    String.join (l2.map (fun d => d.userName ++ " ")), ?_⟩
  rw [makeClientListString_eq, hl, List.map_append, List.map_cons, string_join_append,
    string_join_cons]
  simp only [String.append_assoc]

/-- C6: let the map be duplicate-free with every member's sink open and no sink
shared, and let `c` be a new client: not in the map, its sink open and not the sink
of a member.  When the broadcaster processes the message name + " has arrived" and
then the join of `c`, the message step sends that text once to each member and to
nobody else, so every member's sink gets it exactly once and the sink of `c` gets
nothing; the join step then sends to `c` one line, "Also here: " followed by a
roster that contains the name of `c` followed by a space. -/
theorem arrival_skips_joiner_roster_names_it (rs : Nat → MapOrder) (hrs : ∀ n, (rs n).Valid)
    (st : State) (c : client)
    (hS : st.listOfActiveClients.Nodup)
    (hlive : ∀ d ∈ st.listOfActiveClients, d.msgChannel ∉ st.closed)
    (hown : ∀ d ∈ st.listOfActiveClients, ∀ e ∈ st.listOfActiveClients,
      d.msgChannel = e.msgChannel → d = e)
    (hc : c ∉ st.listOfActiveClients)
    (hfresh : ∀ d ∈ st.listOfActiveClients, d.msgChannel ≠ c.msgChannel)
    (hopen : c.msgChannel ∉ st.closed) :
    ∃ (acts : List Action) (line : String),
      broadcaster rs st [.globalMessages (c.userName ++ " has arrived"), .entering c] =
        .ok ({ st with listOfActiveClients := mapInsert c st.listOfActiveClients },
          [(.globalMessages (c.userName ++ " has arrived"), acts),
           (.entering c, [.send c.msgChannel line])]) ∧
      acts.Perm (st.listOfActiveClients.map
        (fun d => Action.send d.msgChannel (c.userName ++ " has arrived"))) ∧
      (∀ d ∈ st.listOfActiveClients,
        textsTo d.msgChannel acts = [c.userName ++ " has arrived"]) ∧
      textsTo c.msgChannel acts = [] ∧
      (∃ pre post : String, line = "Also here: " ++ pre ++ (c.userName ++ " ") ++ post) := by
  have hlive1 : ∀ d ∈ rs 0 st.listOfActiveClients, d.msgChannel ∉ st.closed :=
    fun d hd => hlive d ((hrs 0 _).mem_iff.1 hd)
  refine ⟨(rs 0 st.listOfActiveClients).map
      (fun d => Action.send d.msgChannel (c.userName ++ " has arrived")),
    "Also here: " ++ makeClientListString (rs 1) (mapInsert c st.listOfActiveClients),
    ?_, ?_, ?_, ?_, ?_⟩
  · simp only [broadcaster, broadcasterStep, sendAll_open _ hlive1, chanSend_open _ hopen]
  · exact (hrs 0 _).map _
  · intro d hd
    rw [textsTo_broadcast (hrs 0) _ hS (fun e he h => hown e he d hd h), if_pos hd]
  · rw [textsTo_broadcast (hrs 0) _ hS (fun e he h => absurd h (hfresh e he)), if_neg hc]
  · exact roster_contains_member (rs 1) (hrs 1) _ c (mem_mapInsert.2 (Or.inl rfl))

/-- With alice active, bob registers: alice's sink gets "bob has arrived", bob's sink
gets only the roster "Also here: alice bob ", which names bob. -/
theorem arrival_skips_joiner_roster_names_it_witness :
    broadcaster storedOrder ⟨[⟨0, "alice"⟩], []⟩
        [.globalMessages "bob has arrived", .entering ⟨1, "bob"⟩] =
      .ok (⟨[⟨0, "alice"⟩, ⟨1, "bob"⟩], []⟩,
        [(.globalMessages "bob has arrived", [.send 0 "bob has arrived"]),
         (.entering ⟨1, "bob"⟩, [.send 1 "Also here: alice bob "])]) ∧
    textsTo 0 [.send 0 "bob has arrived"] = ["bob has arrived"] ∧
    textsTo 1 [.send 0 "bob has arrived"] = [] ∧
    "Also here: alice bob " = "Also here: " ++ "alice " ++ ("bob" ++ " ") ++ "" ∧
    (∃ (acts : List Action) (line : String),
      broadcaster storedOrder ⟨[⟨0, "alice"⟩], []⟩
          [.globalMessages "bob has arrived", .entering ⟨1, "bob"⟩] =
        .ok (⟨[⟨0, "alice"⟩, ⟨1, "bob"⟩], []⟩,
          [(.globalMessages "bob has arrived", acts), (.entering ⟨1, "bob"⟩, [.send 1 line])]) ∧
      textsTo 0 acts = ["bob has arrived"] ∧ textsTo 1 acts = [] ∧
      (∃ pre post : String, line = "Also here: " ++ pre ++ ("bob" ++ " ") ++ post)) := by
  refine ⟨rfl, rfl, rfl, by decide, ?_⟩
  obtain ⟨acts, line, h1, -, h3, h4, h5⟩ :=
    arrival_skips_joiner_roster_names_it storedOrder (fun _ m => List.Perm.refl m)
      ⟨[⟨0, "alice"⟩], []⟩ ⟨1, "bob"⟩ (by decide) (by decide) (by decide) (by decide)
      (by decide) (by decide)
  exact ⟨acts, line, h1, h3 ⟨0, "alice"⟩ (by decide), h4, h5⟩

/-! ## Delivery of broadcasts -/

theorem broadcasterStep_map {r : MapOrder} {st st1 : State} {ev : Event} {acts : List Action}
    (h : broadcasterStep r st ev = .ok (st1, acts)) :
    st1.listOfActiveClients = mapAfter st.listOfActiveClients ev := by
  cases ev with
  | globalMessages msg =>
    obtain ⟨h1, _⟩ := broadcasterStep_msg_ok h
    subst h1
    rfl
  | entering d =>
    obtain ⟨_, h1, _⟩ := broadcasterStep_entering_ok h
    subst h1
    rfl
  | leaving d =>
    obtain ⟨_, h1, _⟩ := broadcasterStep_leaving_ok h
    subst h1
    rfl

theorem mem_mapAfter {m : List client} {ev : Event} {d : client}
    (h : d ∈ mapAfter m ev) : d ∈ m ∨ d ∈ clientsOf [ev] := by
  cases ev with
  | globalMessages msg => exact Or.inl h
  | entering e =>
    rcases mem_mapInsert.1 h with h | h
    · right; simp [clientsOf, h]
    · exact Or.inl h
  | leaving e => exact Or.inl (mem_mapDelete.1 h).1

theorem clientsOf_cons_subset {ev : Event} {evs : List Event} {d : client}
    (h : d ∈ clientsOf evs) : d ∈ clientsOf (ev :: evs) := by
  cases ev <;> simp [clientsOf, h]

theorem clientsOf_head {ev : Event} {evs : List Event} {d : client}
    (h : d ∈ clientsOf [ev]) : d ∈ clientsOf (ev :: evs) := by
  cases ev <;> simp_all [clientsOf]

theorem broadcaster_heard (c : client) {evs : List Event} : ∀ {rs : Nat → MapOrder} {st st2 : State}
    {hist : List (Event × List Action)},
    (∀ n, (rs n).Valid) → st.listOfActiveClients.Nodup →
    (∀ d ∈ st.listOfActiveClients, d.msgChannel = c.msgChannel → d = c) →
    (∀ d ∈ clientsOf evs, d.msgChannel = c.msgChannel → d = c) →
    broadcaster rs st evs = .ok (st2, hist) →
    hist.map (fun p => p.1) = evs ∧
    deliveriesTo c.msgChannel hist = heardBy c st.listOfActiveClients evs := by
  induction evs with
  | nil =>
    intro rs st st2 hist _ _ _ _ h
    simp only [broadcaster] at h
    injection h with h
    injection h with h1 h2
    subst h2
    exact ⟨rfl, rfl⟩
  | cons ev evs ih =>
    intro rs st st2 hist hrs hn hst hevs h
    obtain ⟨st1, acts, hist1, h1, h2, h3⟩ := broadcaster_cons_ok h
    subst h3
    have hmap := broadcasterStep_map h1
    have hst1 : ∀ d ∈ st1.listOfActiveClients, d.msgChannel = c.msgChannel → d = c := by
      intro d hd
      rw [hmap] at hd
      rcases mem_mapAfter hd with hd | hd
      · exact hst d hd
      · exact hevs d (clientsOf_head hd)
    obtain ⟨ih1, ih2⟩ := ih (fun n => hrs (n + 1)) (broadcasterStep_nodup h1 hn) hst1
      (fun d hd => hevs d (clientsOf_cons_subset hd)) h2
    refine ⟨by simp [ih1], ?_⟩
    cases ev with
    | globalMessages msg =>
      obtain ⟨h4, h5⟩ := broadcasterStep_msg_ok h1
      subst h4
      obtain ⟨_, h6⟩ := sendAll_ok h5
      subst h6
      simp only [deliveriesTo, heardBy, ih2, textsTo_broadcast (hrs 0) msg hn hst]
    | entering d =>
      simp only [deliveriesTo, heardBy, ih2, hmap]
    | leaving d =>
      simp only [deliveriesTo, heardBy, ih2, hmap]

/-- C2: for every event sequence the broadcaster processes from the empty map and
every client `c` whose sink is its own (no other client named by the events has the
same sink), the history lists the events in the order given, and each message event
sends its text on the sink of `c` exactly once when `c` is in the map at that moment
and sends nothing on that sink when `c` is not (not yet, or no longer) in the map. -/
theorem broadcast_reaches_members_once (rs : Nat → MapOrder) (hrs : ∀ n, (rs n).Valid)
    (evs : List Event) (c : client)
    (hown : ∀ d ∈ clientsOf evs, d.msgChannel = c.msgChannel → d = c)
    (st : State) (hist : List (Event × List Action))
    (h : broadcaster rs State.init evs = .ok (st, hist)) :
    hist.map (fun p => p.1) = evs ∧
    deliveriesTo c.msgChannel hist = heardBy c [] evs :=
  broadcaster_heard c hrs (by simp [State.init]) (by simp [State.init]) hown h

/-- Alice hears "one" and "two", sent while she is in the map, and neither "early",
sent before she joined, nor "late", sent after she left. -/
theorem broadcast_reaches_members_once_witness :
    broadcaster storedOrder State.init
        [.globalMessages "early", .entering ⟨0, "alice"⟩, .globalMessages "one",
         .entering ⟨1, "bob"⟩, .globalMessages "two", .leaving ⟨0, "alice"⟩,
         .globalMessages "late"] =
      .ok (⟨[⟨1, "bob"⟩], [0]⟩,
        [(.globalMessages "early", []),
         (.entering ⟨0, "alice"⟩, [.send 0 "Also here: alice "]),
         (.globalMessages "one", [.send 0 "one"]),
         (.entering ⟨1, "bob"⟩, [.send 1 "Also here: alice bob "]),
         (.globalMessages "two", [.send 0 "two", .send 1 "two"]),
         (.leaving ⟨0, "alice"⟩, [.close 0]),
         (.globalMessages "late", [.send 1 "late"])]) ∧
    deliveriesTo 0
        [(.globalMessages "early", []),
         (.entering ⟨0, "alice"⟩, [.send 0 "Also here: alice "]),
         (.globalMessages "one", [.send 0 "one"]),
         (.entering ⟨1, "bob"⟩, [.send 1 "Also here: alice bob "]),
         (.globalMessages "two", [.send 0 "two", .send 1 "two"]),
         (.leaving ⟨0, "alice"⟩, [.close 0]),
         (.globalMessages "late", [.send 1 "late"])] =
      [("early", []), ("one", ["one"]), ("two", ["two"]), ("late", [])] ∧
    heardBy ⟨0, "alice"⟩ []
        [.globalMessages "early", .entering ⟨0, "alice"⟩, .globalMessages "one",
         .entering ⟨1, "bob"⟩, .globalMessages "two", .leaving ⟨0, "alice"⟩,
         .globalMessages "late"] =
      [("early", []), ("one", ["one"]), ("two", ["two"]), ("late", [])] :=
  have h := broadcast_reaches_members_once storedOrder (fun _ m => List.Perm.refl m)
    [.globalMessages "early", .entering ⟨0, "alice"⟩, .globalMessages "one",
     .entering ⟨1, "bob"⟩, .globalMessages "two", .leaving ⟨0, "alice"⟩,
     .globalMessages "late"] ⟨0, "alice"⟩ (by decide) ⟨[⟨1, "bob"⟩], [0]⟩ _ rfl
  ⟨rfl, rfl, h.2.symm.trans rfl⟩

/-! ## Closed sinks along a run -/

theorem mem_clientsOf {c : client} {evs : List Event} :
    c ∈ clientsOf evs ↔ Event.entering c ∈ evs ∨ Event.leaving c ∈ evs := by
  induction evs with
  | nil => simp [clientsOf]
  | cons ev evs ih =>
    cases ev with
    | globalMessages msg => simp [clientsOf, ih]
    | entering d =>
      simp only [clientsOf, List.mem_cons, ih, Event.entering.injEq, reduceCtorEq, false_or]
      tauto
    | leaving d =>
      simp only [clientsOf, List.mem_cons, ih, Event.leaving.injEq, reduceCtorEq, false_or]
      tauto

theorem broadcaster_closed {evs : List Event} (ch : Chan) : ∀ {rs : Nat → MapOrder} {st st2 : State}
    {hist : List (Event × List Action)},
    broadcaster rs st evs = .ok (st2, hist) →
    (ch ∈ st2.closed ↔ ch ∈ st.closed ∨ ∃ c, Event.leaving c ∈ evs ∧ c.msgChannel = ch) := by
  induction evs with
  | nil =>
    intro rs st st2 hist h
    simp only [broadcaster] at h
    injection h with h
    injection h with h1 h2
    subst h1
    simp
  | cons ev evs ih =>
    intro rs st st2 hist h
    obtain ⟨st1, acts, hist1, h1, h2, _⟩ := broadcaster_cons_ok h
    rw [ih h2]
    cases ev with
    | globalMessages msg =>
      obtain ⟨h3, _⟩ := broadcasterStep_msg_ok h1
      subst h3
      simp
    | entering d =>
      obtain ⟨_, h3, _⟩ := broadcasterStep_entering_ok h1
      subst h3
      simp
    | leaving d =>
      obtain ⟨_, h3, _⟩ := broadcasterStep_leaving_ok h1
      subst h3
      simp only [List.mem_cons, Event.leaving.injEq]
      constructor
      · rintro ((hx | hx) | ⟨c, hc, hx⟩)
        · exact Or.inr ⟨d, Or.inl rfl, hx.symm⟩
        · exact Or.inl hx
        · exact Or.inr ⟨c, Or.inr hc, hx⟩
      · rintro (hx | ⟨c, hc | hc, hx⟩)
        · exact Or.inl (Or.inr hx)
        · rw [hc] at hx
          exact Or.inl (Or.inl hx.symm)
        · exact Or.inr ⟨c, hc, hx⟩

theorem lastMembershipEvent_none {c : client} {evs : List Event}
    (h : lastMembershipEvent c evs = none) : Event.entering c ∉ evs ∧ Event.leaving c ∉ evs := by
  unfold lastMembershipEvent at h
  rw [List.find?_eq_none] at h
  constructor
  · intro hm
    have := h _ (List.mem_reverse.2 hm)
    simp at this
  · intro hm
    have := h _ (List.mem_reverse.2 hm)
    simp at this

theorem lastMembershipEvent_mem {c : client} {e : Event} {evs : List Event}
    (h : lastMembershipEvent c evs = some e) : e ∈ evs := by
  unfold lastMembershipEvent at h
  exact List.mem_reverse.1 (List.mem_of_find?_eq_some h)

theorem entering_after_leaving {c : client} {evs : List Event}
    (hlast : lastMembershipEvent c evs = some (.entering c))
    (hleft : Event.leaving c ∈ evs) :
    ∃ pre post, evs = pre ++ Event.leaving c :: post ∧ Event.entering c ∈ post := by
  induction evs with
  | nil => cases hleft
  | cons ev evs ih =>
    rw [lastMembershipEvent_cons] at hlast
    cases hl : lastMembershipEvent c evs with
    | none =>
      rw [hl] at hlast
      obtain ⟨_, h2⟩ := lastMembershipEvent_none hl
      rcases List.mem_cons.1 hleft with h | h
      · subst h
        simp [Option.or] at hlast
      · exact absurd h h2
    | some e =>
      rw [hl] at hlast
      simp only [Option.or, Option.some.injEq] at hlast
      subst hlast
      by_cases hin : Event.leaving c ∈ evs
      · obtain ⟨pre, post, h1, h2⟩ := ih hl hin
        exact ⟨ev :: pre, post, by rw [h1]; rfl, h2⟩
      · rcases List.mem_cons.1 hleft with h | h
        · subst h
          exact ⟨[], evs, rfl, lastMembershipEvent_mem hl⟩
        · exact absurd h hin

/-- C10 (invariant I3): take a sequence of join, leave and message events in which
no two clients share a sink, each client is joined at most once and every leave
event for a client has a join of that client before it.  In the state the
broadcaster reaches from the empty map by processing it, every client in the map has
a sink that has not been closed. -/
theorem active_clients_have_open_sinks (rs : Nat → MapOrder) (evs : List Event)
    (hown : ∀ c ∈ clientsOf evs, ∀ d ∈ clientsOf evs, c.msgChannel = d.msgChannel → c = d)
    (hjoin : ∀ c : client, evs.count (.entering c) ≤ 1)
    (hleave : ∀ (pre : List Event) (c : client) (post : List Event),
      evs = pre ++ Event.leaving c :: post → Event.entering c ∈ pre)
    (st : State) (hist : List (Event × List Action))
    (h : broadcaster rs State.init evs = .ok (st, hist)) :
    ∀ c ∈ st.listOfActiveClients, c.msgChannel ∉ st.closed := by
  intro c hc hcl
  have hlast : lastMembershipEvent c evs = some (.entering c) := by
    have := (broadcaster_mem c h).1 hc
    simpa [State.init] using this
  have hcin : c ∈ clientsOf evs := mem_clientsOf.2 (Or.inl (lastMembershipEvent_mem hlast))
  rw [broadcaster_closed c.msgChannel h] at hcl
  rcases hcl with hcl | ⟨d, hd, hch⟩
  · simp [State.init] at hcl
  · have hdc : d = c := hown d (mem_clientsOf.2 (Or.inr hd)) c hcin hch
    subst hdc
    obtain ⟨pre, post, he, hpost⟩ := entering_after_leaving hlast hd
    have hpre := hleave pre d post he
    have hcount := hjoin d
    rw [he, List.count_append, List.count_cons] at hcount
    have h1 : 0 < List.count (Event.entering d) pre := List.count_pos_iff.2 hpre
    have h2 : 0 < List.count (Event.entering d) post := List.count_pos_iff.2 hpost
    omega

/-- Alice and bob join, alice leaves: bob, the one client in the map, has sink 1,
which is not among the closed sinks. -/
theorem active_clients_have_open_sinks_witness :
    broadcaster storedOrder State.init
        [.entering ⟨0, "alice"⟩, .entering ⟨1, "bob"⟩, .globalMessages "hi",
         .leaving ⟨0, "alice"⟩] =
      .ok (⟨[⟨1, "bob"⟩], [0]⟩,
        [(.entering ⟨0, "alice"⟩, [.send 0 "Also here: alice "]),
         (.entering ⟨1, "bob"⟩, [.send 1 "Also here: alice bob "]),
         (.globalMessages "hi", [.send 0 "hi", .send 1 "hi"]),
         (.leaving ⟨0, "alice"⟩, [.close 0])]) ∧
    (1 : Chan) ∉ ([0] : List Chan) := by
  have hev : ∀ (pre : List Event) (c : client) (post : List Event),
      [Event.entering ⟨0, "alice"⟩, .entering ⟨1, "bob"⟩, .globalMessages "hi",
        .leaving ⟨0, "alice"⟩] = pre ++ Event.leaving c :: post → Event.entering c ∈ pre := by
    intro pre c post he
    match pre, he with
    | [_, _, _], he =>
      simp only [List.cons_append, List.nil_append, List.cons.injEq, Event.leaving.injEq] at he
      obtain ⟨h1, h2, h3, h4, h5⟩ := he
      subst h1 h2 h3 h4
      simp
    | [], he => simp at he
    | [_], he => simp at he
    | [_, _], he => simp at he
    | _ :: _ :: _ :: _ :: _, he => simp at he
  have hj : ∀ c : client, List.count (Event.entering c)
      [Event.entering ⟨0, "alice"⟩, .entering ⟨1, "bob"⟩, .globalMessages "hi",
        .leaving ⟨0, "alice"⟩] ≤ 1 := by
    intro c
    simp only [List.count_cons, List.count_nil, beq_iff_eq, Event.entering.injEq, reduceCtorEq,
      if_false]
    by_cases h0 : (⟨0, "alice"⟩ : client) = c
    · subst h0
      simp
    · simp [h0]
      split <;> omega
  exact ⟨rfl, active_clients_have_open_sinks storedOrder _ (by decide) hj hev
    ⟨[⟨1, "bob"⟩], [0]⟩ _ rfl ⟨1, "bob"⟩ (by decide)⟩

/-! ## No close twice, no send after close -/

theorem traceSafe_closed {l : List Action} : ∀ {closed : List Chan},
    traceSafe closed l = true →
    ∀ ch ∈ closed, Action.close ch ∉ l ∧ ∀ t, Action.send ch t ∉ l := by
  induction l with
  | nil => intro closed _ ch _; simp
  | cons x l ih =>
    intro closed h ch hch
    cases x with
    | send ch1 t1 =>
      simp only [traceSafe, Bool.and_eq_true, Bool.not_eq_true', decide_eq_false_iff_not] at h
      obtain ⟨h1, h2⟩ := ih h.2 ch hch
      refine ⟨by simpa using h1, ?_⟩
      intro t ht
      rcases List.mem_cons.1 ht with ht | ht
      · injection ht with ht1 ht2
        subst ht1
        exact h.1 hch
      · exact h2 t ht
    | close ch1 =>
      simp only [traceSafe, Bool.and_eq_true, Bool.not_eq_true', decide_eq_false_iff_not] at h
      obtain ⟨h1, h2⟩ := ih h.2 ch (List.mem_cons_of_mem _ hch)
      refine ⟨?_, by simpa using h2⟩
      intro ht
      rcases List.mem_cons.1 ht with ht | ht
      · injection ht with ht1
        subst ht1
        exact h.1 hch
      · exact h1 ht

theorem traceSafe_no_reuse {a : List Action} : ∀ {closed : List Chan} {ch : Chan}
    {b : List Action}, traceSafe closed (a ++ Action.close ch :: b) = true →
    Action.close ch ∉ b ∧ ∀ t, Action.send ch t ∉ b := by
  induction a with
  | nil =>
    intro closed ch b h
    simp only [List.nil_append, traceSafe, Bool.and_eq_true] at h
    exact traceSafe_closed h.2 ch (List.mem_cons_self _ _)
  | cons x a ih =>
    intro closed ch b h
    cases x with
    | send ch1 t1 =>
      simp only [List.cons_append, traceSafe, Bool.and_eq_true] at h
      exact ih h.2
    | close ch1 =>
      simp only [List.cons_append, traceSafe, Bool.and_eq_true] at h
      exact ih h.2

theorem traceSafe_sends {closed : List Chan} {msg : String} {l : List client}
    (rest : List Action) (h : ∀ d ∈ l, d.msgChannel ∉ closed) :
    traceSafe closed (l.map (fun d => Action.send d.msgChannel msg) ++ rest) =
      traceSafe closed rest := by
  induction l with
  | nil => rfl
  | cons d l ih =>
    have hd : d.msgChannel ∉ closed := h d (List.mem_cons_self _ _)
    simp only [List.map_cons, List.cons_append, traceSafe, hd, decide_False, Bool.not_false,
      Bool.true_and]
    exact ih (fun e he => h e (List.mem_cons_of_mem _ he))

theorem allActions_cons (ev : Event) (acts : List Action) (hist : List (Event × List Action)) :
    allActions ((ev, acts) :: hist) = acts ++ allActions hist := by
  simp [allActions]

theorem broadcaster_safe {evs : List Event} : ∀ {rs : Nat → MapOrder} {st : State},
    (∀ n, (rs n).Valid) →
    (∀ d ∈ st.listOfActiveClients, d.msgChannel ∉ st.closed) →
    (∀ d ∈ clientsOf evs, d.msgChannel ∉ st.closed) →
    (∀ c ∈ st.listOfActiveClients ++ clientsOf evs,
      ∀ d ∈ st.listOfActiveClients ++ clientsOf evs, c.msgChannel = d.msgChannel → c = d) →
    (∀ (pre : List Event) (c : client) (post : List Event),
      evs = pre ++ Event.leaving c :: post → c ∉ clientsOf post) →
    ∃ (st2 : State) (hist : List (Event × List Action)),
      broadcaster rs st evs = .ok (st2, hist) ∧
      traceSafe st.closed (allActions hist) = true ∧
      (∀ c ∈ st2.listOfActiveClients, c.msgChannel ∉ st2.closed) ∧
      (∀ (ev : Event) (acts : List Action) (ch : Chan), (ev, acts) ∈ hist →
        Action.close ch ∈ acts → ∃ c, ev = .leaving c ∧ c.msgChannel = ch) := by
  induction evs with
  | nil =>
    intro rs st _ hlive _ _ _
    exact ⟨st, [], rfl, rfl, hlive, by simp⟩
  | cons ev evs ih =>
    intro rs st hrs hlive hfut hown honce
    have honce1 : ∀ (pre : List Event) (c : client) (post : List Event),
        evs = pre ++ Event.leaving c :: post → c ∉ clientsOf post := by
      intro pre c post he
      exact honce (ev :: pre) c post (by rw [he]; rfl)
    have hfut1 : ∀ d ∈ clientsOf evs, d.msgChannel ∉ st.closed :=
      fun d hd => hfut d (clientsOf_cons_subset hd)
    cases ev with
    | globalMessages msg =>
      have hlive1 : ∀ d ∈ rs 0 st.listOfActiveClients, d.msgChannel ∉ st.closed :=
        fun d hd => hlive d ((hrs 0 _).mem_iff.1 hd)
      obtain ⟨st2, hist, h1, h2, h3, h4⟩ :=
        @ih (fun n => rs (n + 1)) st (fun n => hrs (n + 1)) hlive hfut1 hown honce1
      refine ⟨st2, (Event.globalMessages msg, (rs 0 st.listOfActiveClients).map
        (fun d => Action.send d.msgChannel msg)) :: hist, ?_, ?_, h3, ?_⟩
      · simp only [broadcaster, broadcasterStep, sendAll_open msg hlive1, h1]
      · rw [allActions_cons, traceSafe_sends _ hlive1]
        exact h2
      · intro ev acts ch hm hcl
        rcases List.mem_cons.1 hm with hm | hm
        · injection hm with hm1 hm2
          subst hm2
          simp at hcl
        · exact h4 ev acts ch hm hcl
    | entering c =>
      have hc : c.msgChannel ∉ st.closed := hfut c (by simp [clientsOf])
      have hlive2 : ∀ d ∈ mapInsert c st.listOfActiveClients, d.msgChannel ∉ st.closed := by
        intro d hd
        rcases mem_mapInsert.1 hd with hd | hd
        · subst hd
          exact hc
        · exact hlive d hd
      have hown2 : ∀ x ∈ mapInsert c st.listOfActiveClients ++ clientsOf evs,
          ∀ y ∈ mapInsert c st.listOfActiveClients ++ clientsOf evs,
          x.msgChannel = y.msgChannel → x = y := by
        have hsub : ∀ x ∈ mapInsert c st.listOfActiveClients ++ clientsOf evs,
            x ∈ st.listOfActiveClients ++ clientsOf (Event.entering c :: evs) := by
          intro x hx
          simp only [List.mem_append, mem_mapInsert, clientsOf, List.mem_cons] at hx ⊢
          tauto
        exact fun x hx y hy => hown x (hsub x hx) y (hsub y hy)
      obtain ⟨st2, hist, h1, h2, h3, h4⟩ :=
        @ih (fun n => rs (n + 1))
          { st with listOfActiveClients := mapInsert c st.listOfActiveClients }
          (fun n => hrs (n + 1)) hlive2 hfut1 hown2 honce1
      refine ⟨st2, (Event.entering c, [Action.send c.msgChannel ("Also here: " ++
        makeClientListString (rs 0) (mapInsert c st.listOfActiveClients))]) :: hist,
        ?_, ?_, h3, ?_⟩
      · simp only [broadcaster, broadcasterStep, chanSend_open _ hc, h1]
      · rw [allActions_cons]
        simp only [List.singleton_append, traceSafe, hc, decide_False, Bool.not_false,
          Bool.true_and]
        exact h2
      · intro ev acts ch hm hcl
        rcases List.mem_cons.1 hm with hm | hm
        · injection hm with hm1 hm2
          subst hm2
          simp at hcl
        · exact h4 ev acts ch hm hcl
    | leaving c =>
      have hc : c.msgChannel ∉ st.closed := hfut c (by simp [clientsOf])
      have hcin : c ∈ st.listOfActiveClients ++ clientsOf (Event.leaving c :: evs) := by
        simp [clientsOf]
      have hgone : c ∉ clientsOf evs := honce [] c evs rfl
      have hlive2 : ∀ d ∈ mapDelete c st.listOfActiveClients,
          d.msgChannel ∉ c.msgChannel :: st.closed := by
        intro d hd hmem
        obtain ⟨hd1, hd2⟩ := mem_mapDelete.1 hd
        rcases List.mem_cons.1 hmem with hmem | hmem
        · exact hd2 (hown d (List.mem_append_left _ hd1) c hcin hmem)
        · exact hlive d hd1 hmem
      have hfut2 : ∀ d ∈ clientsOf evs, d.msgChannel ∉ c.msgChannel :: st.closed := by
        intro d hd hmem
        rcases List.mem_cons.1 hmem with hmem | hmem
        · have hdc : d = c :=
            hown d (List.mem_append_right _ (clientsOf_cons_subset hd)) c hcin hmem
          subst hdc
          exact hgone hd
        · exact hfut1 d hd hmem
      have hown2 : ∀ x ∈ mapDelete c st.listOfActiveClients ++ clientsOf evs,
          ∀ y ∈ mapDelete c st.listOfActiveClients ++ clientsOf evs,
          x.msgChannel = y.msgChannel → x = y := by
        have hsub : ∀ x ∈ mapDelete c st.listOfActiveClients ++ clientsOf evs,
            x ∈ st.listOfActiveClients ++ clientsOf (Event.leaving c :: evs) := by
          intro x hx
          simp only [List.mem_append, mem_mapDelete, clientsOf, List.mem_cons] at hx ⊢
          tauto
        exact fun x hx y hy => hown x (hsub x hx) y (hsub y hy)
      obtain ⟨st2, hist, h1, h2, h3, h4⟩ :=
        @ih (fun n => rs (n + 1))
          { listOfActiveClients := mapDelete c st.listOfActiveClients,
            closed := c.msgChannel :: st.closed }
          (fun n => hrs (n + 1)) hlive2 hfut2 hown2 honce1
      refine ⟨st2, (Event.leaving c, [Action.close c.msgChannel]) :: hist, ?_, ?_, h3, ?_⟩
      · simp only [broadcaster, broadcasterStep, chanClose, hc, if_false, h1]
      · rw [allActions_cons]
        simp only [List.singleton_append, traceSafe, hc, decide_False, Bool.not_false,
          Bool.true_and]
        exact h2
      · intro ev acts ch hm hcl
        rcases List.mem_cons.1 hm with hm | hm
        · injection hm with hm1 hm2
          subst hm1 hm2
          simp only [List.mem_singleton, Action.close.injEq] at hcl
          exact ⟨c, rfl, hcl.symm⟩
        · exact h4 ev acts ch hm hcl

/-- C4, as the code has it: take a sequence of join, leave and message events in
which no two clients share a sink and no join or leave event for a client comes
after a leave event for that client.  The broadcaster processes the whole sequence
from the empty map without a panic; among the operations it performs, in order,
nothing follows the close of a sink that closes it again or sends on it; a close is
performed only by the leave step of the client that owns the sink; a client that has
left is not in the map, and no client in the map has a closed sink. -/
theorem sinks_closed_once_when_left_once (rs : Nat → MapOrder) (hrs : ∀ n, (rs n).Valid)
    (evs : List Event)
    (hown : ∀ c ∈ clientsOf evs, ∀ d ∈ clientsOf evs, c.msgChannel = d.msgChannel → c = d)
    (honce : ∀ (pre : List Event) (c : client) (post : List Event),
      evs = pre ++ Event.leaving c :: post → c ∉ clientsOf post) :
    ∃ (st : State) (hist : List (Event × List Action)),
      broadcaster rs State.init evs = .ok (st, hist) ∧
      (∀ (a : List Action) (ch : Chan) (b : List Action),
        allActions hist = a ++ Action.close ch :: b →
        Action.close ch ∉ b ∧ ∀ t, Action.send ch t ∉ b) ∧
      (∀ (ev : Event) (acts : List Action) (ch : Chan), (ev, acts) ∈ hist →
        Action.close ch ∈ acts → ∃ c, ev = .leaving c ∧ c.msgChannel = ch) ∧
      (∀ c : client, Event.leaving c ∈ evs → c ∉ st.listOfActiveClients) ∧
      (∀ c ∈ st.listOfActiveClients, c.msgChannel ∉ st.closed) := by
  obtain ⟨st, hist, h1, h2, h3, h4⟩ :=
    @broadcaster_safe evs rs State.init hrs (by simp [State.init])
      (by simp [State.init]) (by simpa [State.init] using hown) honce
  refine ⟨st, hist, h1, ?_, h4, ?_, h3⟩
  · intro a ch b he
    rw [he] at h2
    exact traceSafe_no_reuse h2
  · intro c hleft hc
    have hlast : lastMembershipEvent c evs = some (.entering c) := by
      have := (broadcaster_mem c h1).1 hc
      simpa [State.init] using this
    obtain ⟨pre, post, he, hpost⟩ := entering_after_leaving hlast hleft
    exact honce pre c post he (mem_clientsOf.2 (Or.inl hpost))

/-- Alice and bob join, a message, alice leaves, a message: the run succeeds, sink 0
is closed once and nothing is sent on it afterwards. -/
theorem sinks_closed_once_when_left_once_witness :
    broadcaster storedOrder State.init
        [.entering ⟨0, "alice"⟩, .entering ⟨1, "bob"⟩, .globalMessages "hi",
         .leaving ⟨0, "alice"⟩, .globalMessages "bye"] =
      .ok (⟨[⟨1, "bob"⟩], [0]⟩,
        [(.entering ⟨0, "alice"⟩, [.send 0 "Also here: alice "]),
         (.entering ⟨1, "bob"⟩, [.send 1 "Also here: alice bob "]),
         (.globalMessages "hi", [.send 0 "hi", .send 1 "hi"]),
         (.leaving ⟨0, "alice"⟩, [.close 0]),
         (.globalMessages "bye", [.send 1 "bye"])]) ∧
    (∃ (st : State) (hist : List (Event × List Action)),
      broadcaster storedOrder State.init
        [.entering ⟨0, "alice"⟩, .entering ⟨1, "bob"⟩, .globalMessages "hi",
         .leaving ⟨0, "alice"⟩, .globalMessages "bye"] = .ok (st, hist) ∧
      (∀ (a : List Action) (ch : Chan) (b : List Action),
        allActions hist = a ++ Action.close ch :: b →
        Action.close ch ∉ b ∧ ∀ t, Action.send ch t ∉ b) ∧
      (∀ c ∈ st.listOfActiveClients, c.msgChannel ∉ st.closed)) := by
  have honce : ∀ (pre : List Event) (c : client) (post : List Event),
      [Event.entering ⟨0, "alice"⟩, .entering ⟨1, "bob"⟩, .globalMessages "hi",
        .leaving ⟨0, "alice"⟩, .globalMessages "bye"] = pre ++ Event.leaving c :: post →
      c ∉ clientsOf post := by
    intro pre c post he
    match pre, he with
    | [_, _, _], he =>
      simp only [List.cons_append, List.nil_append, List.cons.injEq, Event.leaving.injEq] at he
      obtain ⟨-, -, -, -, h5⟩ := he
      subst h5
      simp [clientsOf]
    | [], he => simp at he
    | [_], he => simp at he
    | [_, _], he => simp at he
    | [_, _, _, _], he => simp at he
    | _ :: _ :: _ :: _ :: _ :: _, he => simp at he
  obtain ⟨st, hist, h1, h2, -, -, h5⟩ :=
    sinks_closed_once_when_left_once storedOrder (fun _ m => List.Perm.refl m) _
      (by decide) honce
  exact ⟨rfl, st, hist, h1, h2, h5⟩

/-- C4 as stated fails on a sequence with a repeated leave event: alice joins and
leaves, and the second leave event makes the broadcaster close her closed sink, a
panic.  A join of alice after her leave makes it send on her closed sink. -/
theorem repeated_leave_closes_closed_sink :
    broadcaster storedOrder State.init
        [.entering ⟨0, "alice"⟩, .leaving ⟨0, "alice"⟩, .leaving ⟨0, "alice"⟩] =
      .error (.closeOfClosed 0) ∧
    broadcaster storedOrder State.init
        [.entering ⟨0, "alice"⟩, .leaving ⟨0, "alice"⟩, .entering ⟨0, "alice"⟩] =
      .error (.sendOnClosed 0) :=
  ⟨rfl, rfl⟩

/-! ## The connection handler -/

theorem scanLoop_eq (who : String) (lines : List String) : ∀ log : List Effect,
    scanLoop who log lines =
      log ++ lines.flatMap (fun text =>
        [Effect.publish (.globalMessages (who ++ ": " ++ text)), Effect.timerReset]) := by
  induction lines with
  | nil => intro log; simp [scanLoop]
  | cons text lines ih =>
    intro log
    have := ih (log ++ [Effect.publish (.globalMessages (who ++ ": " ++ text)), Effect.timerReset])
    simp only [scanLoop, List.foldl_cons] at this ⊢
    rw [this]
    simp

/-- C7: when `getUserName` yields the name `n`, the handler of the connection with
sink `ch` performs, in this order: the start of the timer and of the writer, the
prompt, the send of "You are " + n on its own sink, the message n + " has arrived",
the join event of the client (ch, n), the start of the monitor, for each scanned
line in order the message n + ": " + line followed by a timer reset, and then, when
the connection is not closed already, the leave event of the same client, the
message n + " has left" and the close of the connection; when the connection is
closed already, nothing follows the read loop. -/
theorem handler_effects_in_order (ch : Chan) (conn : Conn) (n : String)
    (hn : getUserName conn = .ok n) :
    handleConnection ch conn =
      .ok ([.newTimer, .goClientWriter ch, .connWrite "Enter a user name: ",
            .sinkSend ch ("You are " ++ n),
            .publish (.globalMessages (n ++ " has arrived")),
            .publish (.entering ⟨ch, n⟩), .goMonitor ⟨ch, n⟩] ++
          conn.lines.flatMap (fun text =>
            [Effect.publish (.globalMessages (n ++ ": " ++ text)), Effect.timerReset]) ++
          (if conn.closed = true then []
           else [.publish (.leaving ⟨ch, n⟩), .publish (.globalMessages (n ++ " has left")),
                 .connClose])) := by
  simp only [handleConnection, hn, scanLoop_eq, handlerExit, connectionIsClosed, connReadEmpty]
  by_cases hcl : conn.closed = true <;> simp [hcl]

/-- The reply "bob" and a newline, the lines "hi" and "yo": on an open connection
the handler ends with the leave event and "bob has left"; on a connection the idle
monitor has closed it ends after the last timer reset. -/
theorem handler_effects_in_order_witness :
    handleConnection 3 ⟨[Char.ofNat 98, Char.ofNat 111, Char.ofNat 98, Char.ofNat 10],
        ["hi", "yo"], false⟩ =
      .ok [.newTimer, .goClientWriter 3, .connWrite "Enter a user name: ",
           .sinkSend 3 "You are bob", .publish (.globalMessages "bob has arrived"),
           .publish (.entering ⟨3, "bob"⟩), .goMonitor ⟨3, "bob"⟩,
           .publish (.globalMessages "bob: hi"), .timerReset,
           .publish (.globalMessages "bob: yo"), .timerReset,
           .publish (.leaving ⟨3, "bob"⟩), .publish (.globalMessages "bob has left"),
           .connClose] ∧
    handleConnection 3 ⟨[Char.ofNat 98, Char.ofNat 111, Char.ofNat 98, Char.ofNat 10],
        ["hi", "yo"], true⟩ =
      .ok [.newTimer, .goClientWriter 3, .connWrite "Enter a user name: ",
           .sinkSend 3 "You are bob", .publish (.globalMessages "bob has arrived"),
           .publish (.entering ⟨3, "bob"⟩), .goMonitor ⟨3, "bob"⟩,
           .publish (.globalMessages "bob: hi"), .timerReset,
           .publish (.globalMessages "bob: yo"), .timerReset] :=
  ⟨(handler_effects_in_order 3 ⟨[Char.ofNat 98, Char.ofNat 111, Char.ofNat 98, Char.ofNat 10],
        ["hi", "yo"], false⟩ "bob" rfl).trans rfl,
   (handler_effects_in_order 3 ⟨[Char.ofNat 98, Char.ofNat 111, Char.ofNat 98, Char.ofNat 10],
        ["hi", "yo"], true⟩ "bob" rfl).trans rfl⟩

theorem clientsOf_append (xs ys : List Event) :
    clientsOf (xs ++ ys) = clientsOf xs ++ clientsOf ys := by
  induction xs with
  | nil => rfl
  | cons ev xs ih => cases ev <;> simp [clientsOf, ih]

theorem published_append (xs ys : List Effect) :
    published (xs ++ ys) = published xs ++ published ys := by
  simp [published]

theorem clientsOf_published_lines (who : String) (lines : List String) :
    clientsOf (published (lines.flatMap (fun text =>
      [Effect.publish (.globalMessages (who ++ ": " ++ text)), Effect.timerReset]))) = [] := by
  induction lines with
  | nil => rfl
  | cons text lines ih =>
    rw [List.flatMap_cons, published_append, clientsOf_append, ih]
    rfl

/-- Every client that the join and leave events of one handler name is the client
made at line 110 from the handler's own sink and the name it read: the sink made at
line 98 is carried by that one client value. -/
theorem handler_publishes_its_own_client (ch : Chan) (conn : Conn) (n : String)
    (effs : List Effect) (hn : getUserName conn = .ok n)
    (h : handleConnection ch conn = .ok effs) :
    ∀ c ∈ clientsOf (published effs), c = ⟨ch, n⟩ := by
  simp only [handleConnection, hn, scanLoop_eq, handlerExit] at h
  injection h with h
  subst h
  intro c hc
  simp only [published_append, clientsOf_append, clientsOf_published_lines, List.mem_append,
    List.append_nil] at hc
  rcases hc with hc | hc
  · simp [published, clientsOf] at hc
    exact hc
  · split at hc
    · simp [published, clientsOf] at hc
      exact hc
    · simp [published, clientsOf] at hc

/-! ## Reading the user name -/

theorem readBytes_line (delim : Char) (s rest : List Char) (hs : delim ∉ s) :
    readBytes delim (s ++ delim :: rest) = (s ++ [delim], false) := by
  induction s with
  | nil => simp [readBytes]
  | cons b s ih =>
    have hb : b ≠ delim := fun h => hs (by simp [h])
    have hs1 : delim ∉ s := fun h => hs (List.mem_cons_of_mem _ h)
    have ih1 := ih hs1
    rw [List.cons_append, readBytes, if_neg hb, ih1]
    rfl

theorem getUserName_line (s rest : List Char) (lines : List String) (closed : Bool)
    (hs : Char.ofNat 0x0a ∉ s) :
    getUserName ⟨s ++ Char.ofNat 0x0a :: rest, lines, closed⟩ = .ok (String.mk s) := by
  simp only [getUserName, readBytes_line _ s rest hs, sliceTo, List.length_append,
    List.length_singleton]
  have h1 : ((s.length + 1 : Nat) : Int) - 1 = (s.length : Int) := by omega
  rw [h1]
  have h2 : ¬ ((s.length : Int) < 0 ∨ ((s.length + 1 : Nat) : Int) < (s.length : Int)) := by omega
  simp only [h2, if_false, Int.toNat_ofNat]
  rw [List.take_left']
  rfl

/-- C8 at its failing input: when the connection ends before any byte of the reply,
`ReadBytes` returns no byte and the slice `userName[:len(userName)-1]` has the bound
-1, a panic, whatever the rest of the connection is.  A reply that ends in a newline
yields the bytes before the newline, the empty name for the bare newline; a reply cut
off before its newline loses its last byte. -/
theorem getUserName_panics_without_input :
    (∀ (lines : List String) (closed : Bool),
      getUserName ⟨[], lines, closed⟩ = .error (.sliceBounds (-1))) ∧
    (∀ (s rest : List Char) (lines : List String) (closed : Bool), Char.ofNat 0x0a ∉ s →
      getUserName ⟨s ++ Char.ofNat 0x0a :: rest, lines, closed⟩ = .ok (String.mk s)) ∧
    getUserName ⟨[Char.ofNat 0x0a], [], false⟩ = .ok "" ∧
    getUserName ⟨[Char.ofNat 98, Char.ofNat 111, Char.ofNat 98], [], false⟩ = .ok "bo" :=
  ⟨fun _ _ => rfl, getUserName_line, rfl, rfl⟩

/-! ## Teardown of a connection -/

/-- C9 at its failing input: alice and bob are in the map and alice's connection is
open.  Her read loop ends first, so the handler publishes the leave event and
"alice has left" and closes the connection; the idle timer, which nobody stopped,
expires afterwards and the monitor publishes both once more.  The broadcaster panics
on the second leave event, the close of a closed sink.  When the timer expires first,
the handler finds the connection closed and there is one leave event, after which bob
gets "alice has left" once. -/
theorem read_end_then_timer_publishes_leave_twice :
    published (teardown ⟨0, "alice"⟩ ⟨⟨[], [], false⟩, false, false⟩
        [.readEnds, .timerExpires]) =
      [.leaving ⟨0, "alice"⟩, .globalMessages "alice has left",
       .leaving ⟨0, "alice"⟩, .globalMessages "alice has left"] ∧
    broadcaster storedOrder ⟨[⟨0, "alice"⟩, ⟨1, "bob"⟩], []⟩
        (published (teardown ⟨0, "alice"⟩ ⟨⟨[], [], false⟩, false, false⟩
          [.readEnds, .timerExpires])) =
      .error (.closeOfClosed 0) ∧
    published (teardown ⟨0, "alice"⟩ ⟨⟨[], [], false⟩, false, false⟩
        [.timerExpires, .readEnds]) =
      [.leaving ⟨0, "alice"⟩, .globalMessages "alice has left"] ∧
    broadcaster storedOrder ⟨[⟨0, "alice"⟩, ⟨1, "bob"⟩], []⟩
        (published (teardown ⟨0, "alice"⟩ ⟨⟨[], [], false⟩, false, false⟩
          [.timerExpires, .readEnds])) =
      .ok (⟨[⟨1, "bob"⟩], [0]⟩,
        [(.leaving ⟨0, "alice"⟩, [.close 0]),
         (.globalMessages "alice has left", [.send 1 "alice has left"])]) :=
  ⟨rfl, rfl, rfl, rfl⟩

end ChatServer
